import Mathlib

/-!
Shallow embedding of the aura ring animation engine from
`src/components/AuraBackground.tsx`, together with theorems checking the
natural-language specification against it.

Timestamps and all envelope arithmetic are modelled over `ℚ` (the source
uses millisecond floating-point timestamps from `performance.now()`); the
trigonometric path generator is modelled over `ℝ`.
-/

namespace Aura

/-- `RING_LIFETIME = 14000` (source line 24). -/
def RING_LIFETIME : ℚ := 14000

/-- `SPAWN_INTERVAL = 3500` (source line 25). -/
def SPAWN_INTERVAL : ℚ := 3500

/-- A ring, identified solely by its spawn timestamp.  The source field is
literally named `pawnTime` (source lines 39-41). -/
structure Ring where
  pawnTime : ℚ
  deriving DecidableEq

/-- The mutable state of the animation closure: the active ring list and the
spawn watermark `lastSpawnTime` (source lines 45-51). -/
structure AuraState where
  rings : List Ring
  lastSpawnTime : ℚ
  deriving DecidableEq

/-- Engine construction (source lines 44-51): three pre-warmed rings at ages
10000, 6000, 2000 relative to `now`, watermark set to `now`. -/
def initState (now : ℚ) : AuraState :=
  { rings := [⟨now - 10000⟩, ⟨now - 6000⟩, ⟨now - 2000⟩]
    lastSpawnTime := now }

/-- A cold start: no rings, watermark 0 (not what the source constructs;
used to state the spec's cold-start scenario). -/
def coldStart : AuraState :=
  { rings := [], lastSpawnTime := 0 }

/-- Spawn logic of one tick (source lines 82-85):
`if (time - lastSpawnTime > SPAWN_INTERVAL) { rings.push({pawnTime: time}); lastSpawnTime = time; }`.
Note the strict `>` in the source. -/
def spawnStep (s : AuraState) (time : ℚ) : AuraState :=
  if time - s.lastSpawnTime > SPAWN_INTERVAL then
    { rings := s.rings ++ [⟨time⟩], lastSpawnTime := time }
  else s

/-- Expiry filter of one tick (source line 88):
`rings = rings.filter(r => (time - r.pawnTime) < RING_LIFETIME)`. -/
def expireStep (s : AuraState) (time : ℚ) : AuraState :=
  { s with rings := s.rings.filter fun r => time - r.pawnTime < RING_LIFETIME }

/-- One lifecycle tick of `render(time)`: spawn (lines 82-85) then expiry
(line 88), in source order. -/
def renderStep (s : AuraState) (time : ℚ) : AuraState :=
  expireStep (spawnStep s time) time

/-- Run the lifecycle over a sequence of tick timestamps. -/
def runTicks (s : AuraState) : List ℚ → AuraState
  | [] => s
  | t :: ts => runTicks (renderStep s t) ts

/-- The rings pushed (spawn events) while running a sequence of ticks. -/
def spawnedRings (s : AuraState) : List ℚ → List Ring
  | [] => []
  | t :: ts =>
      (if t - s.lastSpawnTime > SPAWN_INTERVAL then [⟨t⟩] else [])
        ++ spawnedRings (renderStep s t) ts

/-- Normalized ring age (source line 102): `progress = age / RING_LIFETIME`. -/
def progress (time : ℚ) (r : Ring) : ℚ :=
  (time - r.pawnTime) / RING_LIFETIME

/-- Per-ring opacity envelope (source lines 110-116): piecewise in
`progress`, then scaled by `0.7`. -/
def opacity (p : ℚ) : ℚ :=
  (if p < 0.2 then p / 0.2
   else if p > 0.8 then 1 - (p - 0.8) / 0.2
   else 1) * 0.7

/-- Per-ring stroke width (source line 122): `(2 + 10 * progress) * 5`. -/
def lineWidth (p : ℚ) : ℚ :=
  (2 + 10 * p) * 5

/-- Per-ring wave amplitude (source line 135):
`(10 + 20 * progress) * (1 - progress * 0.2)`. -/
def amplitude (p : ℚ) : ℚ :=
  (10 + 20 * p) * (1 - p * 0.2)

/-- `numSteps = 180` — the angular sample count (source line 133). -/
def numSteps : ℕ := 180

/-- `WAVE_COUNT = 12` — the wave harmonic count `H` (source line 26). -/
noncomputable def WAVE_COUNT : ℝ := 12

/-- `WAVE_SPEED = 0.002` — the wave angular speed `S` (source line 27). -/
noncomputable def WAVE_SPEED : ℝ := 0.002

/-- The `i`-th path point of a ring (source lines 137-153):
`angle = (i / numSteps) * π * 2`,
`w1 = sin(angle * WAVE_COUNT + time * WAVE_SPEED)`,
`w2 = cos(angle * (WAVE_COUNT * 1.5) - time * (WAVE_SPEED * 1.2))`,
`r = currentRadius + (w1 + w2) * amplitude`,
point `(cx + cos(angle) * r, cy + sin(angle) * r)`. -/
noncomputable def ringPoint (cx cy currentRadius amplitude time : ℝ) (i : ℕ) : ℝ × ℝ :=
  let angle := ((i : ℝ) / (numSteps : ℝ)) * Real.pi * 2
  let w1 := Real.sin (angle * WAVE_COUNT + time * WAVE_SPEED)
  let w2 := Real.cos (angle * (WAVE_COUNT * 1.5) - time * (WAVE_SPEED * 1.2))
  let shapeOffset := (w1 + w2) * amplitude
  let r := currentRadius + shapeOffset
  (cx + Real.cos angle * r, cy + Real.sin angle * r)

/-- The full sampled contour of a ring: the points for `i = 0, …, numSteps`
emitted by the loop of source lines 137-154. -/
noncomputable def ringPath (cx cy currentRadius amplitude time : ℝ) : List (ℝ × ℝ) :=
  (List.range (numSteps + 1)).map (ringPoint cx cy currentRadius amplitude time)

/-- The sample at `i = numSteps` coincides with the sample at `i = 0`: the
trig arguments differ by integer multiples of `2π`. -/
theorem ringPoint_last_eq_first (cx cy cr amp t : ℝ) :
    ringPoint cx cy cr amp t numSteps = ringPoint cx cy cr amp t 0 := by
  have key1 : Real.sin (2 * Real.pi * WAVE_COUNT + t * WAVE_SPEED)
      = Real.sin (0 * WAVE_COUNT + t * WAVE_SPEED) := by
    rw [show 2 * Real.pi * WAVE_COUNT + t * WAVE_SPEED
        = (0 * WAVE_COUNT + t * WAVE_SPEED) + (12 : ℤ) * (2 * Real.pi) by
      norm_num [WAVE_COUNT]; ring]
    exact Real.sin_add_int_mul_two_pi _ 12
  have key2 : Real.cos (2 * Real.pi * (WAVE_COUNT * 1.5) - t * (WAVE_SPEED * 1.2))
      = Real.cos (0 * (WAVE_COUNT * 1.5) - t * (WAVE_SPEED * 1.2)) := by
    rw [show 2 * Real.pi * (WAVE_COUNT * 1.5) - t * (WAVE_SPEED * 1.2)
        = (0 * (WAVE_COUNT * 1.5) - t * (WAVE_SPEED * 1.2)) + (18 : ℤ) * (2 * Real.pi) by
      norm_num [WAVE_COUNT]; ring]
    exact Real.cos_add_int_mul_two_pi _ 18
  simp only [ringPoint, numSteps]
  push_cast
  rw [show ((180 : ℝ) / 180) * Real.pi * 2 = 2 * Real.pi by ring,
    show ((0 : ℝ) / 180) * Real.pi * 2 = 0 by ring,
    key1, key2, Real.cos_two_pi, Real.sin_two_pi, Real.cos_zero, Real.sin_zero]

/-- C6: the path generator emits exactly `numSteps + 1 = 181` points; the
`i`-th point is `center + r(angle_i) · (cos angle_i, sin angle_i)` with
`angle_i = 2πi/N` and
`r(angle) = currentRadius + amplitude · (sin(angle·H + t·S) + cos(angle·1.5H − t·1.2S))`
for `H = 12`, `S = 0.002`; and the last point coincides with the first
(closed contour). -/
theorem C6_path_generator (cx cy currentRadius amplitude time : ℝ) :
    (ringPath cx cy currentRadius amplitude time).length = numSteps + 1
    ∧ (∀ i : ℕ, i ≤ numSteps →
        (ringPath cx cy currentRadius amplitude time)[i]? = some
          (cx + (currentRadius + amplitude *
              (Real.sin ((2 * Real.pi * (i : ℝ) / (numSteps : ℝ)) * 12 + time * 0.002)
                + Real.cos ((2 * Real.pi * (i : ℝ) / (numSteps : ℝ)) * (1.5 * 12)
                    - time * (1.2 * 0.002))))
            * Real.cos (2 * Real.pi * (i : ℝ) / (numSteps : ℝ)),
           cy + (currentRadius + amplitude *
              (Real.sin ((2 * Real.pi * (i : ℝ) / (numSteps : ℝ)) * 12 + time * 0.002)
                + Real.cos ((2 * Real.pi * (i : ℝ) / (numSteps : ℝ)) * (1.5 * 12)
                    - time * (1.2 * 0.002))))
            * Real.sin (2 * Real.pi * (i : ℝ) / (numSteps : ℝ))))
    ∧ (ringPath cx cy currentRadius amplitude time)[numSteps]?
        = (ringPath cx cy currentRadius amplitude time)[0]? := by
  refine ⟨by simp [ringPath], fun i hi => ?_, ?_⟩
  · rw [ringPath, List.getElem?_map, List.getElem?_range (by omega : i < numSteps + 1)]
    simp only [Option.map_some']
    congr 1
    rw [ringPoint]
    have hA : ((i : ℝ) / (numSteps : ℝ)) * Real.pi * 2
        = 2 * Real.pi * (i : ℝ) / (numSteps : ℝ) := by ring
    simp only [hA, WAVE_COUNT, WAVE_SPEED]
    rw [show (12 : ℝ) * 1.5 = 1.5 * 12 by norm_num,
      show (0.002 : ℝ) * 1.2 = 1.2 * 0.002 by norm_num]
    exact Prod.ext (by ring) (by ring)
  · rw [ringPath, List.getElem?_map, List.getElem?_map,
      List.getElem?_range (by omega : numSteps < numSteps + 1),
      List.getElem?_range (by omega : 0 < numSteps + 1)]
    simp only [Option.map_some']
    rw [ringPoint_last_eq_first]

/-- C6 witness: at sample index `i = 5` (≤ 180) of the contour for
`center = (0,0)`, `currentRadius = 100`, `amplitude = 10`, `time = 0`, the
emitted point is the spec's closed-form point. -/
theorem C6_path_generator_witness :
    (ringPath 0 0 100 10 0)[5]? = some
      (0 + (100 + 10 *
          (Real.sin ((2 * Real.pi * ((5 : ℕ) : ℝ) / (numSteps : ℝ)) * 12 + 0 * 0.002)
            + Real.cos ((2 * Real.pi * ((5 : ℕ) : ℝ) / (numSteps : ℝ)) * (1.5 * 12)
                - 0 * (1.2 * 0.002))))
        * Real.cos (2 * Real.pi * ((5 : ℕ) : ℝ) / (numSteps : ℝ)),
       0 + (100 + 10 *
          (Real.sin ((2 * Real.pi * ((5 : ℕ) : ℝ) / (numSteps : ℝ)) * 12 + 0 * 0.002)
            + Real.cos ((2 * Real.pi * ((5 : ℕ) : ℝ) / (numSteps : ℝ)) * (1.5 * 12)
                - 0 * (1.2 * 0.002))))
        * Real.sin (2 * Real.pi * ((5 : ℕ) : ℝ) / (numSteps : ℝ))) :=
  (C6_path_generator 0 0 100 10 0).2.1 5 (by norm_num [numSteps])

/-- Filtering by `p` after filtering by a weaker predicate `q` is the same as
filtering by `p` alone. -/
theorem filter_filter_of_imp {α : Type} (p q : α → Bool) (l : List α)
    (h : ∀ a, p a = true → q a = true) :
    (l.filter q).filter p = l.filter p := by
  induction l with
  | nil => rfl
  | cons a t ih =>
    by_cases hq : q a = true
    · by_cases hp : p a = true
      · simp [List.filter_cons, hq, hp, ih]
      · simp [List.filter_cons, hq, hp, ih]
    · have hp : p a ≠ true := fun hpa => hq (h a hpa)
      simp [List.filter_cons, hq, hp, ih]

/-- The first element of a `≤`-sorted nonempty list is at most its last. -/
theorem le_getLastD_of_chain_le :
    ∀ (vs : List ℚ) (v : ℚ), List.Chain' (· ≤ ·) (v :: vs) → v ≤ vs.getLastD v
  | [], _, _ => le_rfl
  | w :: ws, v, h => by
    have h1 : v ≤ w := (List.chain'_cons.mp h).1
    have h2 := le_getLastD_of_chain_le ws w (List.chain'_cons.mp h).2
    rw [List.getLastD_cons]
    exact h1.trans h2

/-- The ring list after running a nonempty `≤`-sorted tick sequence is exactly
the initial rings together with all spawn events, filtered by liveness at the
final tick time. -/
theorem runTicks_rings_eq :
    ∀ (us : List ℚ) (u : ℚ) (s : AuraState), List.Chain' (· ≤ ·) (u :: us) →
      (runTicks s (u :: us)).rings
        = (s.rings ++ spawnedRings s (u :: us)).filter
            fun r => us.getLastD u - r.pawnTime < RING_LIFETIME
  | [], u, s, _ => by
    show (renderStep s u).rings = _
    simp only [spawnedRings, List.getLastD_nil]
    by_cases hc : u - s.lastSpawnTime > SPAWN_INTERVAL
    · simp only [renderStep, expireStep, spawnStep, if_pos hc, List.append_nil]
    · simp only [renderStep, expireStep, spawnStep, if_neg hc, List.append_nil]
  | v :: vs, u, s, h => by
    have hL : (v :: vs).getLastD u = vs.getLastD v := List.getLastD_cons u v vs
    have hchain : List.Chain' (· ≤ ·) (v :: vs) := h.tail
    have huv : u ≤ v := (List.chain'_cons.mp h).1
    have huL : u ≤ vs.getLastD v := huv.trans (le_getLastD_of_chain_le vs v hchain)
    have himp : ∀ r : Ring,
        decide (vs.getLastD v - r.pawnTime < RING_LIFETIME) = true →
        decide (u - r.pawnTime < RING_LIFETIME) = true := by
      intro r hr
      simp only [decide_eq_true_eq] at hr ⊢
      linarith
    have ih := runTicks_rings_eq vs v (renderStep s u) hchain
    show (runTicks (renderStep s u) (v :: vs)).rings = _
    rw [ih, hL]
    by_cases hc : u - s.lastSpawnTime > SPAWN_INTERVAL
    · have hstep : (renderStep s u).rings
          = (s.rings ++ [Ring.mk u]).filter
              fun r => u - r.pawnTime < RING_LIFETIME := by
        simp only [renderStep, expireStep, spawnStep, if_pos hc]
      have hsp : spawnedRings s (u :: v :: vs)
          = [Ring.mk u] ++ spawnedRings (renderStep s u) (v :: vs) := by
        simp only [spawnedRings, if_pos hc]
      rw [hstep, hsp]
      simp only [List.filter_append, List.append_assoc]
      rw [filter_filter_of_imp _ _ s.rings himp,
        filter_filter_of_imp _ _ [Ring.mk u] himp]
    · have hstep : (renderStep s u).rings
          = s.rings.filter fun r => u - r.pawnTime < RING_LIFETIME := by
        simp only [renderStep, expireStep, spawnStep, if_neg hc]
      have hsp : spawnedRings s (u :: v :: vs)
          = spawnedRings (renderStep s u) (v :: vs) := by
        simp only [spawnedRings, if_neg hc, List.nil_append]
      rw [hstep, hsp]
      simp only [List.filter_append]
      rw [filter_filter_of_imp _ _ s.rings himp]

/-- A list of rings whose spawn times lie in a half-open window of length
`k * SPAWN_INTERVAL` and are pairwise at least `SPAWN_INTERVAL` apart has at
most `k` elements. -/
theorem length_le_of_gaps (l : List Ring) :
    ∀ (k : ℕ) (lo : ℚ),
      l.Pairwise (fun a b => a.pawnTime + SPAWN_INTERVAL ≤ b.pawnTime) →
      (∀ r ∈ l, lo < r.pawnTime ∧ r.pawnTime ≤ lo + k * SPAWN_INTERVAL) →
      l.length ≤ k := by
  induction l with
  | nil => exact fun k _ _ _ => Nat.zero_le k
  | cons a t ih =>
    intro k lo hp hb
    cases k with
    | zero =>
      exfalso
      have h1 := hb a (List.mem_cons_self a t)
      have h2 : a.pawnTime ≤ lo := by
        have := h1.2
        push_cast at this
        linarith
      linarith [h1.1]
    | succ k =>
      have hpc := List.pairwise_cons.mp hp
      have ha := hb a (List.mem_cons_self a t)
      have harg : ∀ r ∈ t, lo + SPAWN_INTERVAL < r.pawnTime
          ∧ r.pawnTime ≤ lo + SPAWN_INTERVAL + k * SPAWN_INTERVAL := by
        intro r hr
        have hga := hpc.1 r hr
        have hbr := (hb r (List.mem_cons_of_mem a hr)).2
        push_cast at hbr
        norm_num [SPAWN_INTERVAL] at hbr ⊢
        constructor
        · have := ha.1
          norm_num [SPAWN_INTERVAL] at this hga
          linarith
        · linarith
      have hlen := ih k (lo + SPAWN_INTERVAL) hpc.2 harg
      simpa using Nat.succ_le_succ hlen

/-- After filtering by liveness at time `u`, a ring list with pairwise spawn
gaps of at least `SPAWN_INTERVAL` and all spawn times at most `u` retains at
most `4 = lifetime / spawnInterval` rings. -/
theorem filtered_length_le (l : List Ring) (u : ℚ)
    (hp : l.Pairwise (fun a b => a.pawnTime + SPAWN_INTERVAL ≤ b.pawnTime))
    (hb : ∀ r ∈ l, r.pawnTime ≤ u) :
    ((l.filter fun r => u - r.pawnTime < RING_LIFETIME)).length ≤ 4 := by
  apply length_le_of_gaps _ 4 (u - RING_LIFETIME) (hp.filter _)
  intro r hr
  have h1 : u - r.pawnTime < RING_LIFETIME := by
    simpa using (List.mem_filter.mp hr).2
  have h2 : r.pawnTime ≤ u := hb r (List.mem_of_mem_filter hr)
  push_cast
  norm_num [SPAWN_INTERVAL, RING_LIFETIME] at h1 ⊢
  constructor <;> linarith

/-- The lifecycle invariant: rings are pairwise at least `SPAWN_INTERVAL`
apart in spawn time, no spawn time exceeds the watermark, and at most 5 rings
are active. -/
def Inv (s : AuraState) : Prop :=
  s.rings.Pairwise (fun a b => a.pawnTime + SPAWN_INTERVAL ≤ b.pawnTime)
  ∧ (∀ r ∈ s.rings, r.pawnTime ≤ s.lastSpawnTime)
  ∧ s.rings.length ≤ 5

/-- One tick at a time `u` past the watermark preserves the lifecycle
invariant, leaves the watermark at most `u`, and leaves at most 4 rings. -/
theorem renderStep_inv (s : AuraState) (u : ℚ) (hs : Inv s)
    (hu : s.lastSpawnTime ≤ u) :
    Inv (renderStep s u) ∧ (renderStep s u).lastSpawnTime ≤ u := by
  obtain ⟨hpair, hwm, _⟩ := hs
  by_cases hc : u - s.lastSpawnTime > SPAWN_INTERVAL
  · have hrings : (renderStep s u).rings
        = (s.rings ++ [Ring.mk u]).filter fun r => u - r.pawnTime < RING_LIFETIME := by
      simp only [renderStep, expireStep, spawnStep, if_pos hc]
    have hwm' : (renderStep s u).lastSpawnTime = u := by
      simp only [renderStep, expireStep, spawnStep, if_pos hc]
    have hpair' : (s.rings ++ [Ring.mk u]).Pairwise
        (fun a b => a.pawnTime + SPAWN_INTERVAL ≤ b.pawnTime) := by
      rw [List.pairwise_append]
      refine ⟨hpair, List.pairwise_singleton _ _, fun a ha b hb => ?_⟩
      have h1 : a.pawnTime ≤ s.lastSpawnTime := hwm a ha
      have h2 : b = Ring.mk u := by simpa using hb
      rw [h2]
      show a.pawnTime + SPAWN_INTERVAL ≤ u
      linarith
    have hb' : ∀ r ∈ s.rings ++ [Ring.mk u], r.pawnTime ≤ u := by
      intro r hr
      rcases List.mem_append.mp hr with h | h
      · linarith [hwm r h]
      · have : r = Ring.mk u := by simpa using h
        rw [this]
    have hlen := filtered_length_le (s.rings ++ [Ring.mk u]) u hpair' hb'
    refine ⟨⟨?_, ?_, ?_⟩, ?_⟩
    · rw [hrings]; exact hpair'.filter _
    · intro r hr
      rw [hrings] at hr
      rw [hwm']
      exact hb' r (List.mem_of_mem_filter hr)
    · rw [hrings]; omega
    · rw [hwm']
  · have hrings : (renderStep s u).rings
        = s.rings.filter fun r => u - r.pawnTime < RING_LIFETIME := by
      simp only [renderStep, expireStep, spawnStep, if_neg hc]
    have hwm' : (renderStep s u).lastSpawnTime = s.lastSpawnTime := by
      simp only [renderStep, expireStep, spawnStep, if_neg hc]
    have hb' : ∀ r ∈ s.rings, r.pawnTime ≤ u := fun r hr => (hwm r hr).trans hu
    have hlen := filtered_length_le s.rings u hpair hb'
    refine ⟨⟨?_, ?_, ?_⟩, ?_⟩
    · rw [hrings]; exact hpair.filter _
    · intro r hr
      rw [hrings] at hr
      rw [hwm']
      exact hwm r (List.mem_of_mem_filter hr)
    · rw [hrings]; omega
    · rw [hwm']; exact hu

/-- Running any tick sequence that is strictly increasing and never earlier
than the watermark preserves the lifecycle invariant. -/
theorem runTicks_inv :
    ∀ (ts : List ℚ) (s : AuraState), Inv s → (∀ t ∈ ts, s.lastSpawnTime ≤ t) →
      ts.Pairwise (· < ·) → Inv (runTicks s ts)
  | [], s, hs, _, _ => hs
  | u :: ts, s, hs, hle, hp => by
    have h1 := renderStep_inv s u hs (hle u (List.mem_cons_self u ts))
    refine runTicks_inv ts (renderStep s u) h1.1 (fun t ht => ?_)
      (List.pairwise_cons.mp hp).2
    have h2 : u < t := (List.pairwise_cons.mp hp).1 t ht
    linarith [h1.2]

/-- C5: for every strictly increasing tick sequence starting from the
engine's preseeded initial state (rings at ages 10000, 6000, 2000 and
watermark `t0`), the number of simultaneously active rings never exceeds
`⌈lifetime / spawnInterval⌉ + 1 = 5`. -/
theorem C5_ring_count_bound (t0 : ℚ) (ts : List ℚ)
    (hm : ts.Pairwise (· < ·)) (h0 : ∀ t ∈ ts, t0 ≤ t) :
    (runTicks (initState t0) ts).rings.length ≤ 5 := by
  have hinv : Inv (initState t0) := by
    refine ⟨?_, ?_, ?_⟩
    · simp only [initState, List.pairwise_cons, List.mem_cons,
        List.mem_singleton, List.not_mem_nil]
      norm_num [SPAWN_INTERVAL]
      refine ⟨⟨by linarith, by linarith⟩, by linarith⟩
    · intro r hr
      simp only [initState, List.mem_cons, List.not_mem_nil, or_false] at hr
      rcases hr with h | h | h <;> simp [h, initState]
    · simp [initState]
  exact (runTicks_inv ts (initState t0) hinv
    (fun t ht => by simpa [initState] using h0 t ht) hm).2.2

/-- C5 witness: from the preseeded start at `t0 = 0`, after the strictly
increasing ticks `100, 4000, 8000` the active ring count is at most 5. -/
theorem C5_ring_count_bound_witness :
    (runTicks (initState 0) [100, 4000, 8000]).rings.length ≤ 5 :=
  C5_ring_count_bound 0 [100, 4000, 8000]
    (by norm_num [List.pairwise_cons]) (by norm_num)

/-- C2 (counterexample): from a cold start (no preseeded rings, watermark 0),
the active ring count after the tick at `t = 0` is 0, not 1 as claimed: since
the spawn test of line 82 is strict and the watermark starts at 0, the tick at
`t = 0` spawns nothing. -/
theorem C2_counterexample :
    (runTicks coldStart [(0 : ℚ)]).rings.length ≠ 1 := by
  norm_num [runTicks, renderStep, coldStart, spawnStep, expireStep, SPAWN_INTERVAL]

/-- C2 (amended): for every nonempty `≤`-sorted tick sequence from a cold
start, the active ring count after the last tick `t` equals the number of
spawn events with `t - spawnTime < lifetime`; with ticks at exactly
`0, 3500, 7000, 14000`, the counts after those ticks are `0, 0, 1, 2`
(the strict spawn test of line 82 fires first at `t = 7000`). -/
theorem C2_count_eq_live_spawns (u : ℚ) (us : List ℚ)
    (h : List.Chain' (· ≤ ·) (u :: us)) :
    (runTicks coldStart (u :: us)).rings.length
      = ((spawnedRings coldStart (u :: us)).filter
          fun r => us.getLastD u - r.pawnTime < RING_LIFETIME).length
    ∧ (runTicks coldStart [0]).rings.length = 0
    ∧ (runTicks coldStart [0, 3500]).rings.length = 0
    ∧ (runTicks coldStart [0, 3500, 7000]).rings.length = 1
    ∧ (runTicks coldStart [0, 3500, 7000, 14000]).rings.length = 2 := by
  refine ⟨?_, ?_, ?_, ?_, ?_⟩
  · rw [runTicks_rings_eq us u coldStart h]
    simp [coldStart]
  all_goals
    norm_num [runTicks, renderStep, coldStart, spawnStep, expireStep,
      SPAWN_INTERVAL, RING_LIFETIME]

/-- C2 witness: for the tick sequence `0, 3500, 7000, 14000`, the active ring
count after the last tick equals the number of spawn events still live at
`t = 14000` (and the concrete counts are as amended). -/
theorem C2_count_eq_live_spawns_witness :
    (runTicks coldStart [0, 3500, 7000, 14000]).rings.length
      = ((spawnedRings coldStart [0, 3500, 7000, 14000]).filter
          fun r => [(3500 : ℚ), 7000, 14000].getLastD 0 - r.pawnTime
            < RING_LIFETIME).length
    ∧ (runTicks coldStart [0]).rings.length = 0
    ∧ (runTicks coldStart [0, 3500]).rings.length = 0
    ∧ (runTicks coldStart [0, 3500, 7000]).rings.length = 1
    ∧ (runTicks coldStart [0, 3500, 7000, 14000]).rings.length = 2 :=
  C2_count_eq_live_spawns 0 [3500, 7000, 14000]
    (by norm_num [List.chain'_cons, List.chain'_singleton])

/-- A color stop of the fixed gradient table. -/
structure ColorStop where
  pos : ℚ
  color : String
  deriving DecidableEq

/-- The fixed gradient stop table `COLOR_STOPS` (source lines 31-37). -/
def COLOR_STOPS : List ColorStop :=
  [⟨0, "#00f3ff"⟩, ⟨0.25, "#bc13fe"⟩, ⟨0.5, "#4d00c2"⟩, ⟨0.75, "#ff0055"⟩,
   ⟨1, "#00f3ff"⟩]

/-- A stroke style: a flat color, or a conic gradient given by its rotation
and its stop table. -/
inductive StrokeStyle where
  | flat (color : String)
  | conic (rotation : ℚ) (stops : List ColorStop)
  deriving DecidableEq

/-- The per-frame gradient (source lines 93-98): `gradient` starts as the
first stop's flat color; if the surface supports `createConicGradient`, it is
replaced by one conic gradient rotated by `time * 0.0003` with every stop of
the table copied over. -/
def frameGradient (supportsConic : Bool) (time : ℚ) : StrokeStyle :=
  if supportsConic then StrokeStyle.conic (time * 0.0003) COLOR_STOPS
  else StrokeStyle.flat ((COLOR_STOPS.headD ⟨0, ""⟩).color)

/-- One drawing-surface operation issued during a frame. -/
inductive SurfaceOp where
  | clear
  | stroke (style : StrokeStyle) (alpha lineW : ℚ)
  deriving DecidableEq

/-- One full frame of `render(time)` (source lines 54-163, viewport sizing
aside): clear the surface, run the lifecycle step, then stroke every
surviving ring with the shared frame gradient, its opacity and its line
width. -/
def drawFrame (supportsConic : Bool) (s : AuraState) (time : ℚ) :
    AuraState × List SurfaceOp :=
  let s' := renderStep s time
  (s', SurfaceOp.clear ::
    s'.rings.map fun r =>
      SurfaceOp.stroke (frameGradient supportsConic time)
        (opacity (progress time r)) (lineWidth (progress time r)))

/-- C8: whether or not the surface supports conic gradients, the frame is
drawn: the op list is the clear followed by one stroke per surviving ring.
Without conic support every ring's stroke style is the first stop's flat
color `#00f3ff`; with support, the single per-frame gradient is rotated by
`time * 0.0003` and carries all stops of the fixed table, and every ring's
stroke uses that same gradient. -/
theorem C8_gradient_fallback (supportsConic : Bool) (s : AuraState) (time : ℚ) :
    ((drawFrame supportsConic s time).2).length
        = (renderStep s time).rings.length + 1
    ∧ ((drawFrame supportsConic s time).2).head? = some SurfaceOp.clear
    ∧ (supportsConic = false →
        ∀ op ∈ ((drawFrame supportsConic s time).2).tail, ∃ a w,
          op = SurfaceOp.stroke (StrokeStyle.flat "#00f3ff") a w)
    ∧ (supportsConic = true →
        frameGradient supportsConic time
            = StrokeStyle.conic (time * 0.0003) COLOR_STOPS
        ∧ ∀ op ∈ ((drawFrame supportsConic s time).2).tail, ∃ a w,
            op = SurfaceOp.stroke (frameGradient supportsConic time) a w) := by
  refine ⟨by simp [drawFrame], by simp [drawFrame], fun hsc => ?_, fun hsc => ?_⟩
  · intro op hop
    simp only [drawFrame, hsc, List.tail_cons, List.mem_map] at hop
    obtain ⟨r, _, hr⟩ := hop
    exact ⟨_, _, by rw [← hr]; rfl⟩
  · refine ⟨by rw [hsc]; rfl, ?_⟩
    intro op hop
    simp only [drawFrame, hsc, List.tail_cons, List.mem_map] at hop
    obtain ⟨r, _, hr⟩ := hop
    exact ⟨_, _, by rw [← hr, hsc]⟩

/-- C8 witness: without conic support, at the preseeded start and tick time
100, the stroke issued for the oldest surviving ring uses the flat color of
the first stop. -/
theorem C8_gradient_fallback_witness :
    ∃ a w, SurfaceOp.stroke (frameGradient false 100)
        (opacity (progress 100 (Ring.mk (-10000))))
        (lineWidth (progress 100 (Ring.mk (-10000))))
      = SurfaceOp.stroke (StrokeStyle.flat "#00f3ff") a w :=
  (C8_gradient_fallback false (initState 0) 100).2.2.1 rfl
    (SurfaceOp.stroke (frameGradient false 100)
      (opacity (progress 100 (Ring.mk (-10000))))
      (lineWidth (progress 100 (Ring.mk (-10000)))))
    (by norm_num [drawFrame, renderStep, expireStep, spawnStep, initState,
      SPAWN_INTERVAL, RING_LIFETIME])

/-- The scheduler state of the mounted effect (source lines 52, 166,
169-173): the lifecycle state, the closure variable `animationFrameId`, the
browser's single pending callback id (if any), and a counter issuing fresh
callback ids. -/
structure EngineState where
  aura : AuraState
  animationFrameId : ℕ
  pending : Option ℕ
  nextId : ℕ
  deriving DecidableEq

/-- Mounting the effect (source lines 44-51, 169): lifecycle state seeded by
`initState`, one callback scheduled, its id stored in `animationFrameId`. -/
def initEngine (t0 : ℚ) : EngineState :=
  { aura := initState t0, animationFrameId := 0, pending := some 0, nextId := 1 }

/-- An external event: the browser fires the due animation frame at some
time, or React runs the effect cleanup, which executes
`cancelAnimationFrame(animationFrameId)` (source lines 171-173). -/
inductive EngineEvent where
  | fire (time : ℚ)
  | cleanup
  deriving DecidableEq

/-- One event step.  A `fire` runs `render` only if a callback is pending:
the frame is drawn and `render` re-schedules itself (source line 166),
storing the fresh id in `animationFrameId`.  A `cleanup` cancels the pending
callback when its id matches `animationFrameId`, and draws nothing. -/
def engineStep (sc : Bool) (e : EngineState) :
    EngineEvent → EngineState × List SurfaceOp
  | .fire t =>
    match e.pending with
    | none => (e, [])
    | some _ =>
      let p := drawFrame sc e.aura t
      ({ aura := p.1, animationFrameId := e.nextId, pending := some e.nextId,
         nextId := e.nextId + 1 }, p.2)
  | .cleanup =>
    (if e.pending = some e.animationFrameId then { e with pending := none }
     else e, [])

/-- Run a sequence of events, collecting every surface operation issued. -/
def engineRun (sc : Bool) (e : EngineState) :
    List EngineEvent → EngineState × List SurfaceOp
  | [] => (e, [])
  | ev :: evs =>
    let p := engineStep sc e ev
    let q := engineRun sc p.1 evs
    (q.1, p.2 ++ q.2)

/-- The scheduling invariant: the stored `animationFrameId` is exactly the
pending callback, when one exists (ticks only re-schedule from within a
tick, and the id of the fresh request is always stored). -/
def PendingInv (e : EngineState) : Prop :=
  e.pending = none ∨ e.pending = some e.animationFrameId

/-- Each event step preserves the scheduling invariant. -/
theorem engineStep_inv (sc : Bool) (e : EngineState) (ev : EngineEvent)
    (h : PendingInv e) : PendingInv (engineStep sc e ev).1 := by
  cases ev with
  | fire t =>
    rcases hp : e.pending with _ | id
    · simpa [engineStep, hp] using h
    · simp [engineStep, hp, PendingInv]
  | cleanup =>
    by_cases hc : e.pending = some e.animationFrameId
    · simp [engineStep, hc, PendingInv]
    · simpa [engineStep, hc] using h

/-- Running any event sequence preserves the scheduling invariant. -/
theorem engineRun_inv (sc : Bool) :
    ∀ (evs : List EngineEvent) (e : EngineState), PendingInv e →
      PendingInv (engineRun sc e evs).1
  | [], _, h => h
  | ev :: evs, e, h =>
    engineRun_inv sc evs (engineStep sc e ev).1 (engineStep_inv sc e ev h)

/-- From a state with no pending callback, no event ever draws again and no
callback ever becomes pending: ticks only re-schedule themselves from within
a tick. -/
theorem engineRun_pending_none (sc : Bool) :
    ∀ (evs : List EngineEvent) (e : EngineState), e.pending = none →
      (engineRun sc e evs).2 = [] ∧ (engineRun sc e evs).1.pending = none
  | [], _, h => ⟨rfl, h⟩
  | ev :: evs, e, h => by
    have hstep : engineStep sc e ev = (e, []) := by
      cases ev with
      | fire t => simp [engineStep, h]
      | cleanup => simp [engineStep, h]
    have ih := engineRun_pending_none sc evs e h
    constructor
    · show (engineStep sc e ev).2 ++ (engineRun sc (engineStep sc e ev).1 evs).2 = []
      rw [hstep]
      simpa using ih.1
    · show (engineRun sc (engineStep sc e ev).1 evs).1.pending = none
      rw [hstep]
      exact ih.2

/-- The state after a run ending in a cleanup event is the cleanup step
applied to the state after the preceding events. -/
theorem engineRun_snoc_state (sc : Bool) :
    ∀ (l : List EngineEvent) (e : EngineState) (ev : EngineEvent),
      (engineRun sc e (l ++ [ev])).1 = (engineStep sc (engineRun sc e l).1 ev).1
  | [], _, _ => rfl
  | x :: l, e, ev => engineRun_snoc_state sc l (engineStep sc e x).1 ev

/-- Under the scheduling invariant, the cleanup step leaves no pending
callback: the single scheduled tick is cancelled. -/
theorem cleanup_pending_none (sc : Bool) (e : EngineState) (h : PendingInv e) :
    (engineStep sc e EngineEvent.cleanup).1.pending = none := by
  rcases h with h | h
  · by_cases hc : e.pending = some e.animationFrameId
    · simp [engineStep, hc]
    · simp [engineStep, hc, h]
  · simp [engineStep, h]

/-- C9: once the engine is stopped, no further draw calls are ever issued:
in every execution trace from the mounted effect, whatever events precede the
cleanup and whatever events (including arbitrarily many later frame times)
follow it, the events after the stop produce no clear, stroke, or other
surface operation — the single pending scheduled tick is cancelled, and ticks
only re-schedule themselves from within a tick. -/
theorem C9_stop_then_no_draw (sc : Bool) (t0 : ℚ)
    (evs₁ evs₂ : List EngineEvent) :
    (engineRun sc
        (engineRun sc (initEngine t0) (evs₁ ++ [EngineEvent.cleanup])).1
        evs₂).2 = [] := by
  have hinv1 := engineRun_inv sc evs₁ (initEngine t0) (Or.inr rfl)
  have hstop : (engineRun sc (initEngine t0)
      (evs₁ ++ [EngineEvent.cleanup])).1.pending = none := by
    rw [engineRun_snoc_state]
    exact cleanup_pending_none sc _ hinv1
  exact (engineRun_pending_none sc evs₂ _ hstop).1

/-- C1 (counterexample): the source spawn test is the strict `>` of line 82, not
`≥`.  At the preseeded start with watermark `T0 = 0`, the tick at exactly
`T0 + 3500` satisfies `now - lastSpawnTime ≥ SPAWN_INTERVAL`, yet no ring is
appended (the ring count stays 3, no ring with spawn time 3500 exists) and the
watermark is not updated — contradicting the claim that a tick arriving exactly
at `T0 + 3500` spawns the next ring. -/
theorem C1_counterexample :
    (3500 : ℚ) - (initState 0).lastSpawnTime ≥ SPAWN_INTERVAL
    ∧ (renderStep (initState 0) 3500).rings.length = 3
    ∧ ¬ Ring.mk 3500 ∈ (renderStep (initState 0) 3500).rings
    ∧ (renderStep (initState 0) 3500).lastSpawnTime ≠ 3500 := by
  norm_num [renderStep, initState, spawnStep, expireStep, RING_LIFETIME, SPAWN_INTERVAL]

/-- C1 (amended): on a tick at time `now`, the lifecycle step appends exactly
one ring with spawn time `now` and sets the watermark to `now` if and only if
`now - lastSpawnTime > spawnInterval` (strictly); in particular, for the
preseeded start with watermark `T0`, the tick at exactly `T0 + 3500` leaves
the state unchanged, and any tick with `now - T0 > 3500` spawns a ring that
also survives that tick's expiry filter. -/
theorem C1_spawn_rule (s : AuraState) (now t0 : ℚ) :
    ((spawnStep s now).rings = s.rings ++ [⟨now⟩]
        ∧ (spawnStep s now).lastSpawnTime = now
      ↔ now - s.lastSpawnTime > SPAWN_INTERVAL)
    ∧ renderStep (initState t0) (t0 + 3500) = initState t0
    ∧ (now - t0 > SPAWN_INTERVAL →
        (spawnStep (initState t0) now).rings = (initState t0).rings ++ [⟨now⟩]
        ∧ (spawnStep (initState t0) now).lastSpawnTime = now
        ∧ Ring.mk now ∈ (renderStep (initState t0) now).rings) := by
  refine ⟨⟨fun h => ?_, fun h => by simp [spawnStep, h]⟩, ?_, fun h => ?_⟩
  · by_contra hc
    rw [spawnStep, if_neg hc] at h
    have := congrArg List.length h.1
    simp at this
  · have h1 : ¬ (t0 + 3500 - (initState t0).lastSpawnTime > SPAWN_INTERVAL) := by
      simp [initState, SPAWN_INTERVAL]
    rw [renderStep, spawnStep, if_neg h1, expireStep, initState]
    simp only [List.filter]
    norm_num [RING_LIFETIME]
  · have h1 : now - (initState t0).lastSpawnTime > SPAWN_INTERVAL := by
      simpa [initState] using h
    refine ⟨by simp [spawnStep, h1], by simp [spawnStep, h1], ?_⟩
    rw [renderStep, expireStep]
    simp only [List.mem_filter, spawnStep, if_pos h1]
    norm_num [RING_LIFETIME]

/-- C1 witness: with `s = initState 0` and `now = 3600 > 3500`, the spawn
actually fires: the ring list gains exactly the ring with spawn time 3600. -/
theorem C1_spawn_rule_witness :
    (spawnStep (initState 0) 3600).rings = (initState 0).rings ++ [⟨3600⟩]
    ∧ (spawnStep (initState 0) 3600).lastSpawnTime = 3600
    ∧ Ring.mk 3600 ∈ (renderStep (initState 0) 3600).rings :=
  (C1_spawn_rule (initState 0) 3600 0).2.2 (by norm_num [SPAWN_INTERVAL])

/-- C3: after the tick at time `now`, a candidate ring (any ring present after
the spawn phase) is a member of the active set iff `now - pawnTime < lifetime`:
every ring aged `≥ lifetime` is removed by that tick's filter and no ring aged
`< lifetime` is removed. -/
theorem C3_expiry_membership (s : AuraState) (now : ℚ) (r : Ring)
    (hr : r ∈ (spawnStep s now).rings) :
    r ∈ (renderStep s now).rings ↔ now - r.pawnTime < RING_LIFETIME := by
  simp [renderStep, expireStep, List.mem_filter, hr]

/-- C3 witness: the preseeded ring of age 10100 at tick time 100 is kept,
since its age is below the lifetime. -/
theorem C3_expiry_membership_witness :
    Ring.mk (-10000) ∈ (renderStep (initState 0) 100).rings
      ↔ (100 : ℚ) - (Ring.mk (-10000)).pawnTime < RING_LIFETIME :=
  C3_expiry_membership (initState 0) 100 ⟨-10000⟩
    (by norm_num [spawnStep, initState, SPAWN_INTERVAL])

/-- C4: per-ring opacity is the piecewise function of `progress`:
`progress/0.2` below 0.2, `1` on `[0.2, 0.8]`, `1 - (progress - 0.8)/0.2`
above 0.8, all scaled by the max-opacity factor `0.7`; the adjacent pieces
agree at both breakpoints (continuity), and the envelope is 0 at progress 0
and 1 and equals `0.7` at progress `0.2` and `0.5`. -/
theorem C4_opacity_envelope (p : ℚ) :
    (p < 0.2 → opacity p = p / 0.2 * 0.7)
    ∧ (0.2 ≤ p → p ≤ 0.8 → opacity p = 1 * 0.7)
    ∧ (0.8 < p → opacity p = (1 - (p - 0.8) / 0.2) * 0.7)
    ∧ (0.2 : ℚ) / 0.2 * 0.7 = 1 * 0.7
    ∧ (1 - ((0.8 : ℚ) - 0.8) / 0.2) * 0.7 = 1 * 0.7
    ∧ opacity 0 = 0 ∧ opacity 1 = 0
    ∧ opacity 0.2 = 0.7 ∧ opacity 0.5 = 0.7 := by
  refine ⟨fun h => by rw [opacity, if_pos h],
    fun h1 h2 => ?_, fun h => ?_, by norm_num, by norm_num,
    by norm_num [opacity], by norm_num [opacity],
    by norm_num [opacity], by norm_num [opacity]⟩
  · rw [opacity, if_neg (not_lt.mpr h1), if_neg (not_lt.mpr h2)]
  · have h1 : ¬ p < 0.2 := by linarith
    rw [opacity, if_neg h1, if_pos h]

/-- C4 witness: in the fade-in region, at progress `0.1`, the envelope takes
the fade-in value `0.1 / 0.2 * 0.7`. -/
theorem C4_opacity_envelope_witness :
    opacity 0.1 = (0.1 : ℚ) / 0.2 * 0.7 :=
  (C4_opacity_envelope 0.1).1 (by norm_num)

/-- C7: every ring still present after a tick's spawn-then-expire phases
(hence every ring handed to the envelope and path computation of that same
tick, which uses the same timestamp) has `progress < 1`. -/
theorem C7_progress_lt_one (s : AuraState) (now : ℚ) (r : Ring)
    (hr : r ∈ (renderStep s now).rings) :
    progress now r < 1 := by
  have h : now - r.pawnTime < RING_LIFETIME := by
    rw [renderStep, expireStep] at hr
    simpa using (List.mem_filter.mp hr).2
  rw [progress, div_lt_one (by norm_num [RING_LIFETIME])]
  simpa [RING_LIFETIME] using h

/-- C7 witness: the oldest preseeded ring, at tick time 100, has progress
`10100 / 14000 < 1`. -/
theorem C7_progress_lt_one_witness :
    progress 100 ⟨-10000⟩ < 1 :=
  C7_progress_lt_one (initState 0) 100 ⟨-10000⟩
    (by norm_num [renderStep, expireStep, spawnStep, initState, SPAWN_INTERVAL,
      RING_LIFETIME])

/-- C10: the per-ring wave amplitude `(10 + 20 p) * (1 - 0.2 p)` is strictly
increasing on `[0, 1]`, rising from 10 at progress 0 to 24 at progress 1. -/
theorem C10_amplitude_strictly_increasing (p q : ℚ)
    (_hp : 0 ≤ p) (hq : q ≤ 1) (hpq : p < q) :
    amplitude p < amplitude q ∧ amplitude 0 = 10 ∧ amplitude 1 = 24 := by
  refine ⟨?_, by norm_num [amplitude], by norm_num [amplitude]⟩
  have hsum : p + q ≤ 2 := by linarith
  simp only [amplitude]
  nlinarith [hpq, hsum]

/-- C10 witness: over the whole lifetime, the amplitude indeed rises:
`amplitude 0 < amplitude 1`, with endpoint values 10 and 24. -/
theorem C10_amplitude_strictly_increasing_witness :
    amplitude 0 < amplitude 1 ∧ amplitude 0 = 10 ∧ amplitude 1 = 24 :=
  C10_amplitude_strictly_increasing 0 1 le_rfl le_rfl (by norm_num)

end Aura
